import Mathlib

/-!
Verification of the funding-rate-tracker repository.

This file is a shallow embedding of the two Python scripts
`src/fundingrate.py` and `src/spotstockarb.py`.  Python floats are
modelled by rationals (ℚ); Python's float division, which raises
`ZeroDivisionError` on a zero divisor, is modelled by an `Option`-valued
division.  Python dictionaries keyed by integer hour buckets are modelled
by association lists where the *last* binding of a key wins, exactly as
repeated assignment into a `dict` behaves.  `str.upper()` is modelled on
the ASCII range (coin tickers are ASCII), with strings as lists of
code points.
-/

/-- Models the funding history records consumed by both scripts: each raw
API record carries a millisecond timestamp `time` and a `fundingRate`
(parsed to a float in the source, here ℚ). -/
structure FundingRecord where
  time : Nat
  fundingRate : ℚ
deriving DecidableEq

/-- Models Python's `str.upper()` on a single ASCII code point: lowercase
letters 97..122 are shifted down by 32, everything else is unchanged. -/
def upperChar (c : Nat) : Nat := if 97 ≤ c ∧ c ≤ 122 then c - 32 else c

/-- Models `coin.split(":", 1)` guarded by `":" in coin` (code point 58 is
the colon): returns the part before the first colon and the part after it,
or `none` when the string has no colon. -/
def splitFirstColon : List Nat → Option (List Nat × List Nat)
  | [] => none
  | c :: cs =>
    if c = 58 then some ([], cs)
    else (splitFirstColon cs).map (fun p => (c :: p.1, p.2))

/-- Models `format_coin_name` (defined identically in src/fundingrate.py
lines 21-26 and src/spotstockarb.py lines 22-27): if the coin contains a
colon, keep the part before the first colon verbatim and uppercase the
remainder; otherwise uppercase the whole string. -/
def format_coin_name (coin : List Nat) : List Nat :=
  match splitFirstColon coin with
  | some (pre, rest) => pre ++ 58 :: rest.map upperChar
  | none => coin.map upperChar

/-- Models the Python exception classes relevant to the two `main` loops.
All constructors stand for subclasses of Python's `Exception`. -/
inductive PyExn
  | httpError          -- requests.exceptions.HTTPError
  | requestException   -- requests.exceptions.RequestException (superclass of HTTPError)
  | zeroDivisionError  -- ZeroDivisionError
  | keyError           -- KeyError
  | otherError         -- any other Exception subclass
deriving DecidableEq

namespace FundingRate

/-- Models `annualize_rate` from src/fundingrate.py lines 50-52:
`return hourly_rate * 8760`. -/
def annualize_rate (hourly_rate : ℚ) : ℚ := hourly_rate * 8760

/-- Models `calculate_average_funding` from src/fundingrate.py lines 76-81:
`0.0` for an empty list, otherwise the sum of the `fundingRate` fields
divided by the number of records. -/
def calculate_average_funding (data : List FundingRecord) : ℚ :=
  if data.isEmpty then 0
  else (data.map (·.fundingRate)).sum / (data.length : ℚ)

/-- Models the `except` clauses of the `main` loop of src/fundingrate.py
(lines 190-195): `except requests.exceptions.HTTPError` and
`except requests.exceptions.RequestException` are the only handlers. -/
def caught (e : PyExn) : Bool :=
  match e with
  | .httpError => true
  | .requestException => true
  | _ => false

/-- Outcome of one iteration of the fundingrate.py `main` loop body from
the fetch onwards: either a CSV was saved, or the data was empty (message,
no CSV, loop continues), or an exception was caught (error message, no
CSV, loop returns to the prompt), or an exception propagated uncaught. -/
inductive IterOutcome
  | savedCsv
  | noData
  | caughtReprompt
  | uncaught (e : PyExn)
deriving DecidableEq

/-- Models one iteration of the `main` loop of src/fundingrate.py (lines
144-195) from the API fetch on: the `try` body fetches, and on success
formats, prints and saves a CSV; the two `except` clauses catch only
`HTTPError` and `RequestException`, print an error and fall through to
the next prompt without writing a CSV. -/
def main_loop_step (fetch : Except PyExn (List FundingRecord)) : IterOutcome :=
  match fetch with
  | .error e => if caught e then .caughtReprompt else .uncaught e
  | .ok data => if data.isEmpty then .noData else .savedCsv

end FundingRate

namespace SpotStockArb

/-- Models a Hyperliquid hourly candle as consumed by `align_data`: raw
millisecond timestamp `t` and the open/close prices `o`/`c`. -/
structure Candle where
  t : Nat
  o : ℚ
  c : ℚ
deriving DecidableEq

/-- Models one row of the yfinance hourly stock history as consumed by
`align_data`: the row index converted to a second timestamp by
`int(idx.timestamp())`, and the `Open`/`Close` columns. -/
structure StockRow where
  ts : Nat
  openPrice : ℚ
  closePrice : ℚ
deriving DecidableEq

/-- Models one entry of the list produced by `align_data`
(src/spotstockarb.py lines 155-165).  The derived `datetime` field is
omitted: it is a pure rendering of `timestamp`. -/
structure AlignedEntry where
  timestamp : Nat
  stock_open : ℚ
  stock_close : ℚ
  hl_open : ℚ
  hl_close : ℚ
  funding_rate : ℚ
  market_open : Bool
deriving DecidableEq

/-- Models one result row of `calculate_arb_pnl`
(src/spotstockarb.py lines 198-210), again with `datetime` replaced by
the underlying hour timestamp. -/
structure PnlRow where
  timestamp : Nat
  stock_price : ℚ
  hl_price : ℚ
  stock_pnl : ℚ
  hl_pnl : ℚ
  hour_pnl : ℚ
  funding_rate : ℚ
  funding_profit : ℚ
  cumulative_pnl : ℚ
  cumulative_funding : ℚ
  market_open : Bool
deriving DecidableEq

/-- Lookup in a Python dict built by iterating over an association list
and assigning each pair in order: the last binding of a key wins. -/
def lastAssoc {α : Type} : List (Nat × α) → Nat → Option α
  | [], _ => none
  | (k, v) :: rest, q =>
    match lastAssoc rest q with
    | some w => some w
    | none => if k = q then some v else none

/-- Hour bucket of a millisecond timestamp:
`ts = t // 1000; hour_ts = (ts // 3600) * 3600`. -/
def hourBucketMs (t : Nat) : Nat := (t / 1000 / 3600) * 3600

/-- Hour bucket of a second timestamp: `hour_ts = (ts // 3600) * 3600`. -/
def hourBucketSec (t : Nat) : Nat := (t / 3600) * 3600

/-- Key/value pairs inserted into the `hl_prices` dict
(src/spotstockarb.py lines 95-102). -/
def hlPairs (hl_candles : List Candle) : List (Nat × (ℚ × ℚ)) :=
  hl_candles.map fun cd => (hourBucketMs cd.t, (cd.o, cd.c))

/-- Models the `hl_prices` dict: hour bucket ↦ (open, close). -/
def hl_prices (hl_candles : List Candle) (h : Nat) : Option (ℚ × ℚ) :=
  lastAssoc (hlPairs hl_candles) h

/-- Models the `funding_rates` dict (src/spotstockarb.py lines 104-109):
hour bucket ↦ funding rate. -/
def funding_rates (funding_data : List FundingRecord) (h : Nat) : Option ℚ :=
  lastAssoc (funding_data.map fun r => (hourBucketMs r.time, r.fundingRate)) h

/-- Key/value pairs inserted into the `stock_prices` dict
(src/spotstockarb.py lines 111-119). -/
def stockPairs (stock_data : List StockRow) : List (Nat × (ℚ × ℚ)) :=
  stock_data.map fun r => (hourBucketSec r.ts, (r.openPrice, r.closePrice))

/-- Models the `stock_prices` dict: hour bucket ↦ (open, close). -/
def stock_prices (stock_data : List StockRow) (h : Nat) : Option (ℚ × ℚ) :=
  lastAssoc (stockPairs stock_data) h

/-- The keys of the `stock_prices` dict (with repetitions for rows that
fall in the same bucket; only membership and maxima are ever used). -/
def stockKeys (stock_data : List StockRow) : List Nat :=
  (stockPairs stock_data).map Prod.fst

/-- Models `sorted(hl_prices.keys())` (src/spotstockarb.py line 122): the
distinct hour buckets of the Hyperliquid candles in ascending order. -/
def all_hl_hours (hl_candles : List Candle) : List Nat :=
  List.insertionSort (· ≤ ·) ((hlPairs hl_candles).map Prod.fst).dedup

/-- Models `max([h for h in stock_prices.keys() if h < hour_ts])`
(src/spotstockarb.py lines 144-146), `none` when no key is below `h`. -/
def maxKeyBelow : List Nat → Nat → Option Nat
  | [], _ => none
  | s :: rest, h =>
    match maxKeyBelow rest h with
    | none => if s < h then some s else none
    | some m => if s < h then some (max s m) else some m

/-- The loop body of `align_data` (src/spotstockarb.py lines 130-165),
recursing over the sorted Hyperliquid hours and threading the
`last_stock_price` variable.  The inner `stock_prices` lookup in the
`maxKeyBelow` branch can never miss (the maximum is itself a key); the
`none` fallbacks there and for a missing `hl_prices` key are dead code
kept only to make the match total. -/
def alignGo (stock_data : List StockRow) (hl_candles : List Candle)
    (funding_data : List FundingRecord) :
    List Nat → Option ℚ → List AlignedEntry
  | [], _ => []
  | hour_ts :: rest, last_stock_price =>
    match hl_prices hl_candles hour_ts with
    | none => alignGo stock_data hl_candles funding_data rest last_stock_price
    | some (ho, hc) =>
      match stock_prices stock_data hour_ts with
      | some (so, sc) =>
        { timestamp := hour_ts, stock_open := so, stock_close := sc,
          hl_open := ho, hl_close := hc,
          funding_rate := (funding_rates funding_data hour_ts).getD 0,
          market_open := true } ::
          alignGo stock_data hl_candles funding_data rest (some sc)
      | none =>
        match last_stock_price with
        | some p =>
          { timestamp := hour_ts, stock_open := p, stock_close := p,
            hl_open := ho, hl_close := hc,
            funding_rate := (funding_rates funding_data hour_ts).getD 0,
            market_open := false } ::
            alignGo stock_data hl_candles funding_data rest (some p)
        | none =>
          match maxKeyBelow (stockKeys stock_data) hour_ts with
          | some latest =>
            match stock_prices stock_data latest with
            | some pair =>
              { timestamp := hour_ts, stock_open := pair.2, stock_close := pair.2,
                hl_open := ho, hl_close := hc,
                funding_rate := (funding_rates funding_data hour_ts).getD 0,
                market_open := false } ::
                alignGo stock_data hl_candles funding_data rest (some pair.2)
            | none => alignGo stock_data hl_candles funding_data rest none
          | none => alignGo stock_data hl_candles funding_data rest none

/-- Models `align_data` from src/spotstockarb.py lines 90-167.  The
`hours_back` parameter is accepted and ignored, as in the source. -/
def align_data (stock_data : List StockRow) (hl_candles : List Candle)
    (funding_data : List FundingRecord) (hours_back : Nat) : List AlignedEntry :=
  let _ := hours_back
  alignGo stock_data hl_candles funding_data (all_hl_hours hl_candles) none

/-- Python float division: raises `ZeroDivisionError` (here `none`) when
the divisor is zero. -/
def qdiv? (a b : ℚ) : Option ℚ := if b = 0 then none else some (a / b)

/-- The loop body of `calculate_arb_pnl` (src/spotstockarb.py lines
178-210), threading the two cumulative sums; `none` models an uncaught
`ZeroDivisionError` from one of the two unguarded divisions. -/
def arbGo (half_amount : ℚ) :
    List AlignedEntry → ℚ → ℚ → Option (List PnlRow)
  | [], _, _ => some []
  | entry :: rest, cumulative_pnl, cumulative_funding =>
    match qdiv? (entry.stock_close - entry.stock_open) entry.stock_open with
    | none => none
    | some stock_pct_change =>
      match qdiv? (entry.hl_close - entry.hl_open) entry.hl_open with
      | none => none
      | some hl_pct_change =>
        match arbGo half_amount rest
            (cumulative_pnl
              + (half_amount * stock_pct_change + -half_amount * hl_pct_change))
            (cumulative_funding + half_amount * entry.funding_rate) with
        | none => none
        | some rows =>
          some ({ timestamp := entry.timestamp, stock_price := entry.stock_close,
                  hl_price := entry.hl_close,
                  stock_pnl := half_amount * stock_pct_change,
                  hl_pnl := -half_amount * hl_pct_change,
                  hour_pnl := half_amount * stock_pct_change
                    + -half_amount * hl_pct_change,
                  funding_rate := entry.funding_rate,
                  funding_profit := half_amount * entry.funding_rate,
                  cumulative_pnl := cumulative_pnl
                    + (half_amount * stock_pct_change
                      + -half_amount * hl_pct_change),
                  cumulative_funding := cumulative_funding
                    + half_amount * entry.funding_rate,
                  market_open := entry.market_open } :: rows)

/-- Models `calculate_arb_pnl` from src/spotstockarb.py lines 170-212:
`half_amount = starting_amount / 2`, then one result row per aligned
entry; `none` models an uncaught `ZeroDivisionError`. -/
def calculate_arb_pnl (aligned_data : List AlignedEntry)
    (starting_amount : ℚ) : Option (List PnlRow) :=
  arbGo (starting_amount / 2) aligned_data 0 0

/-- One line of the CSV written by `save_to_csv`
(src/spotstockarb.py lines 215-265), symbolically: the header, one data
line per result row, and the summary block (the leading `"\nSummary"`
write produces a blank line followed by the `Summary` title line).
Constructors carry the exact values the source formats into the line. -/
inductive CsvLine
  | header
  | data (row : PnlRow)
  | blank
  | summaryTitle
  | startingAmountLine (amount : ℚ)
  | totalHoursLine (total market nonMarket : Nat)
  | totalPricePnlLine (v : ℚ)
  | totalFundingLine (v : ℚ)
  | totalProfitLine (v : ℚ)
  | returnPctLine (v : ℚ)
deriving DecidableEq

/-- The pieces concatenated into the CSV file name by
`filename = f"arb_{stock_ticker}_{safe_hl}_{timestamp}.csv"`
(src/spotstockarb.py lines 217-219), where `safe_hl` replaces `":"`
with `"_"` in the Hyperliquid ticker. -/
def csv_filename_parts (stock_ticker hl_ticker timestamp : String) :
    List String :=
  ["arb_", stock_ticker, "_", hl_ticker.replace ":" "_", "_", timestamp, ".csv"]

/-- The CSV file name written by `save_to_csv` of src/spotstockarb.py. -/
def csv_filename (stock_ticker hl_ticker timestamp : String) : String :=
  String.join (csv_filename_parts stock_ticker hl_ticker timestamp)

/-- Models the body of the CSV written by `save_to_csv`
(src/spotstockarb.py lines 225-263): header, one line per result row in
input order, and — only when `results` is non-empty — the summary block
computed from the last row. -/
def save_to_csv_lines (results : List PnlRow) (starting_amount : ℚ) :
    List CsvLine :=
  CsvLine.header :: results.map CsvLine.data ++
    match results.getLast? with
    | none => []
    | some last =>
      let total_pnl := last.cumulative_pnl
      let total_funding := last.cumulative_funding
      let total_profit := total_pnl + total_funding
      let market_hours := (results.filter (·.market_open)).length
      [CsvLine.blank, CsvLine.summaryTitle,
       CsvLine.startingAmountLine starting_amount,
       CsvLine.totalHoursLine results.length market_hours
         (results.length - market_hours),
       CsvLine.totalPricePnlLine total_pnl,
       CsvLine.totalFundingLine total_funding,
       CsvLine.totalProfitLine total_profit,
       CsvLine.returnPctLine (total_profit / starting_amount * 100)]

/-- Models the `except` clauses of the `main` loop of src/spotstockarb.py
(lines 404-407): `except requests.exceptions.HTTPError` followed by the
catch-all `except Exception`, which catches every remaining exception
class. -/
def caught (e : PyExn) : Bool :=
  match e with
  | .httpError => true
  | _ => true

/-- Result of one iteration of the spotstockarb.py `main` loop body:
whether a CSV file was written, whether the loop goes back to prompting
(it always does unless an exception escapes), and the escaped exception
if any. -/
structure IterResult where
  csvWritten : Bool
  reprompted : Bool
  uncaughtExn : Option PyExn
deriving DecidableEq

/-- Models the `try` body of the spotstockarb.py `main` loop (lines
322-402) from the fetches on: each fetch may raise; empty stock data,
empty candles or an empty alignment print a message and produce no CSV;
`calculate_arb_pnl` may raise `ZeroDivisionError`; otherwise a CSV is
written.  The payload records whether a CSV was written. -/
def try_body (stock_fetch : Except PyExn (List StockRow))
    (candle_fetch : Except PyExn (List Candle))
    (funding_fetch : Except PyExn (List FundingRecord))
    (hours_back : Nat) (starting_amount : ℚ) : Except PyExn Bool :=
  match stock_fetch with
  | .error e => .error e
  | .ok stock_data =>
    if stock_data.isEmpty then .ok false
    else
      match candle_fetch with
      | .error e => .error e
      | .ok hl_candles =>
        if hl_candles.isEmpty then .ok false
        else
          match funding_fetch with
          | .error e => .error e
          | .ok funding_data =>
            let aligned := align_data stock_data hl_candles funding_data hours_back
            if aligned.isEmpty then .ok false
            else
              match calculate_arb_pnl aligned starting_amount with
              | none => .error .zeroDivisionError
              | some _ => .ok true

/-- Models one iteration of the `main` loop of src/spotstockarb.py from
the fetches on, including the exception handlers of lines 404-407: a
caught exception prints an error and the `while True` loop re-prompts
with no CSV written. -/
def main_loop_step (stock_fetch : Except PyExn (List StockRow))
    (candle_fetch : Except PyExn (List Candle))
    (funding_fetch : Except PyExn (List FundingRecord))
    (hours_back : Nat) (starting_amount : ℚ) : IterResult :=
  match try_body stock_fetch candle_fetch funding_fetch hours_back starting_amount with
  | .ok written => ⟨written, true, none⟩
  | .error e => if caught e then ⟨false, true, none⟩ else ⟨false, false, some e⟩

/-- The condition "a stock price exists at or before hour `h`" used to
characterise which Hyperliquid hours survive the alignment. -/
def stockExistsAtOrBefore (stock_data : List StockRow) (h : Nat) : Bool :=
  (stockKeys stock_data).any (fun s => decide (s ≤ h))

/-- The close price of the most recent stock bar at or before hour `h`
(last-wins among bars sharing a bucket, as in the `stock_prices` dict). -/
def mostRecentStockCloseAtOrBefore (stock_data : List StockRow) (h : Nat) :
    Option ℚ :=
  match maxKeyBelow (stockKeys stock_data) (h + 1) with
  | none => none
  | some k => (stock_prices stock_data k).map Prod.snd

/-- Invariant of the `last_stock_price` variable of `align_data` relative
to the list `hs` of hours still to be processed: when it is unset, every
stock-price key relevant to the remaining hours still lies among them;
when it holds `p`, `p` is the close of a stock-price key `k` lying
strictly before every remaining hour, and every stock-price key is either
at or before `k`, or among the remaining hours, or after all of them. -/
def FfillInv (stock_data : List StockRow) (last : Option ℚ)
    (hs : List Nat) : Prop :=
  match last with
  | none => ∀ s ∈ stockKeys stock_data, (∃ x ∈ hs, s ≤ x) → s ∈ hs
  | some p => ∃ k, k ∈ stockKeys stock_data ∧
      (stock_prices stock_data k).map Prod.snd = some p ∧
      (∀ x ∈ hs, k < x) ∧
      (∀ s ∈ stockKeys stock_data, s ≤ k ∨ s ∈ hs ∨ (∀ x ∈ hs, x < s))

end SpotStockArb

/-- C5: annualize_rate multiplies the hourly funding rate by the constant
8760, the number of hourly funding intervals in a year. -/
theorem annualize_rate_spec (r : ℚ) :
    FundingRate.annualize_rate r = r * 8760 ∧ (8760 : ℕ) = 24 * 365 :=
  ⟨rfl, rfl⟩

namespace SpotStockArb

theorem qdiv?_eq_some {a b q : ℚ} (h : qdiv? a b = some q) :
    b ≠ 0 ∧ q = a / b := by
  unfold qdiv? at h
  split at h
  · exact absurd h (by simp)
  · exact ⟨by assumption, (Option.some_inj.mp h).symm⟩

theorem arbGo_eq_some_spec (half : ℚ) (l : List AlignedEntry) :
    ∀ (cp cf : ℚ) (rows : List PnlRow), arbGo half l cp cf = some rows →
      rows.length = l.length ∧
      ∀ i (hi : i < l.length) (hi2 : i < rows.length),
        (l.get ⟨i, hi⟩).stock_open ≠ 0 ∧ (l.get ⟨i, hi⟩).hl_open ≠ 0 ∧
        (rows.get ⟨i, hi2⟩).stock_pnl
          = half * (((l.get ⟨i, hi⟩).stock_close - (l.get ⟨i, hi⟩).stock_open)
              / (l.get ⟨i, hi⟩).stock_open) ∧
        (rows.get ⟨i, hi2⟩).hl_pnl
          = -(half * (((l.get ⟨i, hi⟩).hl_close - (l.get ⟨i, hi⟩).hl_open)
              / (l.get ⟨i, hi⟩).hl_open)) ∧
        (rows.get ⟨i, hi2⟩).hour_pnl
          = (rows.get ⟨i, hi2⟩).stock_pnl + (rows.get ⟨i, hi2⟩).hl_pnl := by
  induction l with
  | nil =>
    intro cp cf rows h
    simp only [arbGo, Option.some_inj] at h
    subst h
    exact ⟨rfl, fun i hi => absurd hi (by simp)⟩
  | cons e rest ih =>
    intro cp cf rows h
    simp only [arbGo] at h
    split at h
    · exact absurd h (by simp)
    next spc hso =>
      split at h
      · exact absurd h (by simp)
      next hpc hho =>
        split at h
        · exact absurd h (by simp)
        next rows' hrec =>
          obtain ⟨hso0, hsoeq⟩ := qdiv?_eq_some hso
          obtain ⟨hho0, hhoeq⟩ := qdiv?_eq_some hho
          obtain ⟨hlen, hidx⟩ := ih _ _ _ hrec
          obtain rfl := Option.some_inj.mp h
          refine ⟨by simp [hlen], ?_⟩
          intro i hi hi2
          match i with
          | 0 =>
            refine ⟨hso0, hho0, ?_, ?_, ?_⟩
            · simp [List.get, hsoeq]
            · simp [List.get, hhoeq, neg_mul]
            · simp [List.get]
          | Nat.succ j =>
            have hj : j < rest.length := by simpa using hi
            have hj2 : j < rows'.length := by simpa using hi2
            simpa using hidx j hj hj2

theorem arbGo_total (half : ℚ) (l : List AlignedEntry)
    (hnz : ∀ e ∈ l, e.stock_open ≠ 0 ∧ e.hl_open ≠ 0) :
    ∀ cp cf, ∃ rows, arbGo half l cp cf = some rows := by
  induction l with
  | nil => exact fun cp cf => ⟨[], rfl⟩
  | cons e rest ih =>
    intro cp cf
    have he := hnz e (List.mem_cons_self e rest)
    obtain ⟨rows', hr⟩ := ih (fun x hx => hnz x (List.mem_cons_of_mem _ hx))
      (cp + (half * ((e.stock_close - e.stock_open) / e.stock_open)
        + -half * ((e.hl_close - e.hl_open) / e.hl_open)))
      (cf + half * e.funding_rate)
    have hs : (arbGo half (e :: rest) cp cf).isSome := by
      simp only [arbGo, qdiv?, if_neg he.1, if_neg he.2, hr, Option.isSome_some]
    exact Option.isSome_iff_exists.mp hs

end SpotStockArb

/-- C1: for every list of aligned entries and every positive starting
amount, whenever calculate_arb_pnl returns a result it has one row per
entry, the long stock leg's PnL is the notional (half the starting
amount) times the stock's percentage price change over the hour, the
short Hyperliquid leg's PnL is minus the notional times the Hyperliquid
percentage price change, and hour_pnl is their sum. -/
theorem calculate_arb_pnl_per_hour (aligned : List SpotStockArb.AlignedEntry)
    (amt : ℚ) (rows : List SpotStockArb.PnlRow) (hamt : 0 < amt)
    (hrun : SpotStockArb.calculate_arb_pnl aligned amt = some rows) :
    rows.length = aligned.length ∧
    ∀ i (hi : i < aligned.length) (hi2 : i < rows.length),
      (rows.get ⟨i, hi2⟩).stock_pnl
        = (amt / 2) * (((aligned.get ⟨i, hi⟩).stock_close
            - (aligned.get ⟨i, hi⟩).stock_open)
              / (aligned.get ⟨i, hi⟩).stock_open) ∧
      (rows.get ⟨i, hi2⟩).hl_pnl
        = -((amt / 2) * (((aligned.get ⟨i, hi⟩).hl_close
            - (aligned.get ⟨i, hi⟩).hl_open)
              / (aligned.get ⟨i, hi⟩).hl_open)) ∧
      (rows.get ⟨i, hi2⟩).hour_pnl
        = (rows.get ⟨i, hi2⟩).stock_pnl + (rows.get ⟨i, hi2⟩).hl_pnl := by
  obtain ⟨hlen, hidx⟩ := SpotStockArb.arbGo_eq_some_spec (amt / 2) aligned 0 0 rows hrun
  exact ⟨hlen, fun i hi hi2 => ⟨(hidx i hi hi2).2.2.1, (hidx i hi hi2).2.2.2.1,
    (hidx i hi hi2).2.2.2.2⟩⟩

/-- Witness for C1 at a concrete input: one aligned hour, starting
amount 200. -/
theorem calculate_arb_pnl_per_hour_witness :
    SpotStockArb.calculate_arb_pnl [⟨0, 10, 11, 100, 90, 1/1000, true⟩] 200
      = some [⟨0, 11, 90, 10, 10, 20, 1/1000, 1/10, 20, 1/10, true⟩] ∧
    ([⟨0, 11, 90, 10, 10, 20, 1/1000, 1/10, 20, 1/10, true⟩]
        : List SpotStockArb.PnlRow).length
      = ([⟨0, 10, 11, 100, 90, 1/1000, true⟩]
        : List SpotStockArb.AlignedEntry).length := by
  have hrun : SpotStockArb.calculate_arb_pnl
      [⟨0, 10, 11, 100, 90, 1/1000, true⟩] 200
      = some [⟨0, 11, 90, 10, 10, 20, 1/1000, 1/10, 20, 1/10, true⟩] := by
    simp only [SpotStockArb.calculate_arb_pnl, SpotStockArb.arbGo,
      SpotStockArb.qdiv?]
    norm_num
  exact ⟨hrun, (calculate_arb_pnl_per_hour [⟨0, 10, 11, 100, 90, 1/1000, true⟩]
    200 [⟨0, 11, 90, 10, 10, 20, 1/1000, 1/10, 20, 1/10, true⟩]
    (by norm_num) hrun).1⟩

/-- C10 counterexample: the divisions in calculate_arb_pnl are not
guarded — an entry whose stock_open is 0 makes the computation fail
(Python raises ZeroDivisionError, modelled by `none`). -/
theorem calculate_arb_pnl_zero_open_cex :
    SpotStockArb.calculate_arb_pnl [⟨0, 0, 0, 100, 100, 0, false⟩] 100
      = none := by
  norm_num [SpotStockArb.calculate_arb_pnl, SpotStockArb.arbGo,
    SpotStockArb.qdiv?]

/-- C10 (amended): calculate_arb_pnl divides by each entry's stock_open
and hl_open without any guard, so it is total exactly on lists whose
entries all have nonzero open prices; an entry with a zero open price
raises ZeroDivisionError. -/
theorem calculate_arb_pnl_total_of_nonzero
    (aligned : List SpotStockArb.AlignedEntry) (amt : ℚ)
    (hnz : ∀ e ∈ aligned, e.stock_open ≠ 0 ∧ e.hl_open ≠ 0) :
    ∃ rows, SpotStockArb.calculate_arb_pnl aligned amt = some rows :=
  SpotStockArb.arbGo_total (amt / 2) aligned hnz 0 0

/-- Witness for C10's amended theorem at a concrete input with nonzero
open prices. -/
theorem calculate_arb_pnl_total_of_nonzero_witness :
    (SpotStockArb.calculate_arb_pnl [⟨0, 10, 11, 100, 90, 0, true⟩] 100).isSome
      = true := by
  obtain ⟨rows, h⟩ := calculate_arb_pnl_total_of_nonzero
    [⟨0, 10, 11, 100, 90, 0, true⟩] 100
    (by intro e he; rw [List.mem_singleton] at he; subst he
        exact ⟨by norm_num, by norm_num⟩)
  rw [h]; rfl

/-- C6: calculate_average_funding returns 0 on the empty list and
otherwise the arithmetic mean of the fundingRate fields (stated as: the
record count times the result equals the sum of the rates). -/
theorem calculate_average_funding_spec (data : List FundingRecord) :
    (data = [] → FundingRate.calculate_average_funding data = 0) ∧
    (data ≠ [] → (data.length : ℚ) * FundingRate.calculate_average_funding data
        = (data.map FundingRecord.fundingRate).sum) := by
  constructor
  · intro h; subst h; rfl
  · intro h
    have hlen : (data.length : ℚ) ≠ 0 :=
      Nat.cast_ne_zero.mpr (List.length_pos.mpr h).ne'
    rw [FundingRate.calculate_average_funding,
      if_neg (by simpa [List.isEmpty_iff] using h)]
    exact mul_div_cancel₀ _ hlen

/-- Witness for C6 at a concrete two-record list. -/
theorem calculate_average_funding_spec_witness :
    ((([⟨0, 3⟩, ⟨1, 5⟩] : List FundingRecord).length : ℚ))
        * FundingRate.calculate_average_funding [⟨0, 3⟩, ⟨1, 5⟩]
      = (([⟨0, 3⟩, ⟨1, 5⟩] : List FundingRecord).map
          FundingRecord.fundingRate).sum :=
  (calculate_average_funding_spec [⟨0, 3⟩, ⟨1, 5⟩]).2 (by decide)

theorem upperChar_upperChar (c : Nat) : upperChar (upperChar c) = upperChar c := by
  unfold upperChar
  split_ifs <;> omega

theorem upperChar_eq_58 {c : Nat} : upperChar c = 58 ↔ c = 58 := by
  unfold upperChar
  split_ifs <;> omega

theorem mem_58_map_upperChar {l : List Nat} :
    58 ∈ l.map upperChar ↔ 58 ∈ l := by
  simp only [List.mem_map]
  constructor
  · rintro ⟨a, ha, hae⟩
    rwa [upperChar_eq_58.mp hae] at ha
  · intro h
    exact ⟨58, h, by decide⟩

theorem splitFirstColon_eq_none {l : List Nat} :
    splitFirstColon l = none ↔ 58 ∉ l := by
  induction l with
  | nil => simp [splitFirstColon]
  | cons c cs ih =>
    simp only [splitFirstColon, List.mem_cons]
    split_ifs with hc
    · subst hc; simp
    · rw [Option.map_eq_none', ih]
      constructor
      · intro h hm
        rcases hm with hm | hm
        · exact hc hm.symm
        · exact h hm
      · intro h hm
        exact h (Or.inr hm)

theorem splitFirstColon_some_spec {l pre rest : List Nat} :
    splitFirstColon l = some (pre, rest) → 58 ∉ pre ∧ l = pre ++ 58 :: rest := by
  induction l generalizing pre rest with
  | nil => simp [splitFirstColon]
  | cons c cs ih =>
    simp only [splitFirstColon]
    split_ifs with hc
    · subst hc
      intro h
      obtain ⟨h1, h2⟩ := Prod.mk.injEq .. ▸ Option.some_inj.mp h
      subst h1; subst h2
      exact ⟨by simp, by simp⟩
    · cases hsp : splitFirstColon cs with
      | none => simp [hsp]
      | some p =>
        obtain ⟨p1, p2⟩ := p
        simp only [hsp, Option.map_some']
        intro h
        obtain ⟨h1, h2⟩ := Prod.mk.injEq .. ▸ Option.some_inj.mp h
        subst h1; subst h2
        obtain ⟨hnp, hl⟩ := ih hsp
        refine ⟨?_, by simp [hl]⟩
        intro hm
        rcases List.mem_cons.mp hm with hm | hm
        · exact hc hm.symm
        · exact hnp hm

theorem splitFirstColon_append {pre rest : List Nat} (h : 58 ∉ pre) :
    splitFirstColon (pre ++ 58 :: rest) = some (pre, rest) := by
  induction pre with
  | nil => simp [splitFirstColon]
  | cons c cs ih =>
    have hc : c ≠ 58 := fun e => h (by simp [e])
    have ih2 := ih (fun hm => h (List.mem_cons_of_mem _ hm))
    simp [splitFirstColon, hc, ih2]

theorem takeWhile_colon {pre rest : List Nat} (h : 58 ∉ pre) :
    (pre ++ 58 :: rest).takeWhile (fun x => x != 58) = pre ∧
    (pre ++ 58 :: rest).dropWhile (fun x => x != 58) = 58 :: rest := by
  induction pre with
  | nil => simp [List.takeWhile, List.dropWhile]
  | cons c cs ih =>
    have hc : (c != 58) = true := by
      simp only [bne_iff_ne, ne_eq]
      exact fun e => h (by simp [e])
    have ih2 := ih (fun hm => h (List.mem_cons_of_mem _ hm))
    simp only [List.cons_append, List.takeWhile_cons, List.dropWhile_cons, hc,
      if_true, ih2.1, ih2.2]
    simp

theorem format_eq_of_split_some {l pre rest : List Nat}
    (h : splitFirstColon l = some (pre, rest)) :
    format_coin_name l = pre ++ 58 :: rest.map upperChar := by
  unfold format_coin_name
  rw [h]

theorem format_eq_of_split_none {l : List Nat} (h : splitFirstColon l = none) :
    format_coin_name l = l.map upperChar := by
  unfold format_coin_name
  rw [h]

/-- C9: format_coin_name is idempotent; when the coin contains a colon
(code point 58) the part before the first colon is preserved verbatim and
only the remainder is uppercased; otherwise the whole string is
uppercased. -/
theorem format_coin_name_spec (c : List Nat) :
    format_coin_name (format_coin_name c) = format_coin_name c ∧
    ((58 : Nat) ∈ c → format_coin_name c
        = c.takeWhile (fun x => x != 58)
          ++ 58 :: ((c.dropWhile (fun x => x != 58)).drop 1).map upperChar) ∧
    ((58 : Nat) ∉ c → format_coin_name c = c.map upperChar) := by
  refine ⟨?_, ?_, ?_⟩
  · cases hsp : splitFirstColon c with
    | none =>
      have hnc : 58 ∉ c := splitFirstColon_eq_none.mp hsp
      have hnc2 : 58 ∉ c.map upperChar :=
        fun hm => hnc (mem_58_map_upperChar.mp hm)
      rw [format_eq_of_split_none hsp,
        format_eq_of_split_none (splitFirstColon_eq_none.mpr hnc2),
        List.map_map]
      exact List.map_congr_left (fun a _ => upperChar_upperChar a)
    | some p =>
      obtain ⟨pre, rest⟩ := p
      obtain ⟨hnp, hl⟩ := splitFirstColon_some_spec hsp
      rw [format_eq_of_split_some hsp,
        format_eq_of_split_some (splitFirstColon_append hnp), List.map_map]
      congr 2
      exact List.map_congr_left (fun a _ => upperChar_upperChar a)
  · intro hmem
    cases hsp : splitFirstColon c with
    | none => exact absurd hmem (splitFirstColon_eq_none.mp hsp)
    | some p =>
      obtain ⟨pre, rest⟩ := p
      obtain ⟨hnp, hl⟩ := splitFirstColon_some_spec hsp
      subst hl
      have htw := @takeWhile_colon pre rest hnp
      rw [format_eq_of_split_some hsp, htw.1, htw.2, List.drop_succ_cons,
        List.drop_zero]
  · intro hnm
    exact format_eq_of_split_none (splitFirstColon_eq_none.mpr hnm)

/-- Witness for C9 at the concrete coin "xy:ab". -/
theorem format_coin_name_spec_witness :
    format_coin_name (format_coin_name [120, 121, 58, 97, 98])
        = format_coin_name [120, 121, 58, 97, 98] ∧
    format_coin_name [120, 121, 58, 97, 98]
      = ([120, 121, 58, 97, 98] : List Nat).takeWhile (fun x => x != 58)
        ++ 58 :: ((([120, 121, 58, 97, 98] : List Nat).dropWhile
            (fun x => x != 58)).drop 1).map upperChar :=
  ⟨(format_coin_name_spec [120, 121, 58, 97, 98]).1,
   (format_coin_name_spec [120, 121, 58, 97, 98]).2.1 (by decide)⟩

/-- C7 counterexample: spotstockarb.py's catch-all `except Exception`
catches a ZeroDivisionError raised inside the try body (here from a stock
price of 0 at an aligned hour): the iteration re-prompts with no CSV
written instead of letting the exception propagate, so an exception class
other than the HTTP errors is caught. -/
theorem catch_all_exception_cex :
    SpotStockArb.try_body (Except.ok [⟨0, 0, 0⟩]) (Except.ok [⟨0, 100, 100⟩])
        (Except.ok []) 24 100 = Except.error PyExn.zeroDivisionError ∧
    SpotStockArb.caught PyExn.zeroDivisionError = true ∧
    SpotStockArb.main_loop_step (Except.ok [⟨0, 0, 0⟩])
        (Except.ok [⟨0, 100, 100⟩]) (Except.ok []) 24 100
      = ⟨false, true, none⟩ :=
  ⟨rfl, rfl, rfl⟩

/-- C7 (amended): both loops recover from a failed fetch by printing an
error and re-prompting without writing a CSV, but the caught classes
differ: fundingrate.py catches exactly HTTPError and RequestException
(any other exception propagates), while spotstockarb.py follows its
HTTPError handler with the catch-all `except Exception`, so every
exception from its fetch/compute body is caught and the loop re-prompts
with no CSV written. -/
theorem main_loop_failure_recovery :
    (∀ e : PyExn, FundingRate.main_loop_step (Except.error e)
        = FundingRate.IterOutcome.caughtReprompt
      ↔ (e = PyExn.httpError ∨ e = PyExn.requestException)) ∧
    (∀ (e : PyExn) (cf : Except PyExn (List SpotStockArb.Candle))
        (ff : Except PyExn (List FundingRecord)) (hb : Nat) (amt : ℚ),
      SpotStockArb.main_loop_step (Except.error e) cf ff hb amt
        = ⟨false, true, none⟩) := by
  constructor
  · intro e
    cases e <;> simp [FundingRate.main_loop_step, FundingRate.caught]
  · intro e cf ff hb amt
    cases e <;> rfl

/-- Witness for C7's amended theorem: an HTTP error in the fundingrate.py
fetch leads to a caught-and-reprompt outcome. -/
theorem main_loop_failure_recovery_witness :
    FundingRate.main_loop_step (Except.error PyExn.httpError)
      = FundingRate.IterOutcome.caughtReprompt :=
  (main_loop_failure_recovery.1 PyExn.httpError).mpr (Or.inl rfl)

/-- C8: for every non-empty result list, the CSV body is a header line
followed by exactly one data line per result row in input order, the
summary's total-price-PnL and total-funding lines carry the
cumulative_pnl and cumulative_funding of the last row, and the file name
is assembled from the stock ticker, the (colon-sanitised) Hyperliquid
ticker and the current timestamp. -/
theorem save_to_csv_spec (results : List SpotStockArb.PnlRow)
    (stock_ticker hl_ticker ts : String) (amt : ℚ) (hne : results ≠ []) :
    (SpotStockArb.save_to_csv_lines results amt).length = results.length + 9 ∧
    (SpotStockArb.save_to_csv_lines results amt)[0]?
      = some SpotStockArb.CsvLine.header ∧
    (∀ i, i < results.length →
      (SpotStockArb.save_to_csv_lines results amt)[i + 1]?
        = results[i]?.map SpotStockArb.CsvLine.data) ∧
    (SpotStockArb.save_to_csv_lines results amt)[results.length + 5]?
      = some (SpotStockArb.CsvLine.totalPricePnlLine
          (results.getLast hne).cumulative_pnl) ∧
    (SpotStockArb.save_to_csv_lines results amt)[results.length + 6]?
      = some (SpotStockArb.CsvLine.totalFundingLine
          (results.getLast hne).cumulative_funding) ∧
    ts ∈ SpotStockArb.csv_filename_parts stock_ticker hl_ticker ts ∧
    stock_ticker ∈ SpotStockArb.csv_filename_parts stock_ticker hl_ticker ts ∧
    hl_ticker.replace ":" "_"
      ∈ SpotStockArb.csv_filename_parts stock_ticker hl_ticker ts ∧
    SpotStockArb.csv_filename stock_ticker hl_ticker ts
      = String.join (SpotStockArb.csv_filename_parts stock_ticker hl_ticker ts)
    := by
  have hgl := List.getLast?_eq_getLast results hne
  have hform : SpotStockArb.save_to_csv_lines results amt
      = (SpotStockArb.CsvLine.header :: results.map SpotStockArb.CsvLine.data)
        ++ [SpotStockArb.CsvLine.blank, SpotStockArb.CsvLine.summaryTitle,
            SpotStockArb.CsvLine.startingAmountLine amt,
            SpotStockArb.CsvLine.totalHoursLine results.length
              ((results.filter (·.market_open)).length)
              (results.length - (results.filter (·.market_open)).length),
            SpotStockArb.CsvLine.totalPricePnlLine
              (results.getLast hne).cumulative_pnl,
            SpotStockArb.CsvLine.totalFundingLine
              (results.getLast hne).cumulative_funding,
            SpotStockArb.CsvLine.totalProfitLine
              ((results.getLast hne).cumulative_pnl
                + (results.getLast hne).cumulative_funding),
            SpotStockArb.CsvLine.returnPctLine
              (((results.getLast hne).cumulative_pnl
                + (results.getLast hne).cumulative_funding) / amt * 100)] := by
    simp only [SpotStockArb.save_to_csv_lines, hgl, List.cons_append]
  refine ⟨?_, ?_, ?_, ?_, ?_, ?_, ?_, ?_, rfl⟩
  · rw [hform]
    simp only [List.length_append, List.length_cons, List.length_map,
      List.length_nil]
  · rw [hform]
    simp
  · intro i hi
    rw [hform, List.cons_append, List.getElem?_cons_succ,
      List.getElem?_append_left (by simpa using hi), List.getElem?_map]
  · rw [hform, List.getElem?_append_right
      (by simp only [List.length_cons, List.length_map]; omega)]
    have h4 : results.length + 5
        - (SpotStockArb.CsvLine.header
            :: results.map SpotStockArb.CsvLine.data).length = 4 := by
      simp only [List.length_cons, List.length_map]
      omega
    rw [h4]
    simp
  · rw [hform, List.getElem?_append_right
      (by simp only [List.length_cons, List.length_map]; omega)]
    have h5 : results.length + 6
        - (SpotStockArb.CsvLine.header
            :: results.map SpotStockArb.CsvLine.data).length = 5 := by
      simp only [List.length_cons, List.length_map]
      omega
    rw [h5]
    simp
  · simp [SpotStockArb.csv_filename_parts]
  · simp [SpotStockArb.csv_filename_parts]
  · simp [SpotStockArb.csv_filename_parts]

/-- Witness for C8 at a concrete one-row result list. -/
theorem save_to_csv_spec_witness :
    (SpotStockArb.save_to_csv_lines
        [⟨0, 11, 90, 1, 2, 3, 0, 5, 3, 5, true⟩] 100).length = 10 ∧
    (SpotStockArb.save_to_csv_lines
        [⟨0, 11, 90, 1, 2, 3, 0, 5, 3, 5, true⟩] 100)[6]?
      = some (SpotStockArb.CsvLine.totalPricePnlLine 3) := by
  have h := save_to_csv_spec [⟨0, 11, 90, 1, 2, 3, 0, 5, 3, 5, true⟩]
    "TSLA" "BTC" "20240101_000000" 100 (by decide)
  exact ⟨by simpa using h.1, by simpa using h.2.2.2.1⟩

namespace SpotStockArb

theorem lastAssoc_isSome_iff {α : Type} (ps : List (Nat × α)) (k : Nat) :
    (lastAssoc ps k).isSome = true ↔ k ∈ ps.map Prod.fst := by
  induction ps with
  | nil => simp [lastAssoc]
  | cons p rest ih =>
    obtain ⟨k', v⟩ := p
    simp only [List.map_cons, List.mem_cons]
    cases hr : lastAssoc rest k with
    | some w =>
      have hk := ih.mp (by simp [hr])
      simp only [lastAssoc, hr, Option.isSome_some]
      simp [hk]
    | none =>
      have hnk : k ∉ List.map Prod.fst rest := by
        intro hm
        have := ih.mpr hm
        rw [hr] at this
        exact absurd this (by simp)
      by_cases hk : k' = k
      · subst hk
        simp only [lastAssoc, hr]
        simp [hnk]
      · simp only [lastAssoc, hr, if_neg hk]
        simp only [Option.isSome_none, Bool.false_eq_true, false_iff]
        intro hor
        rcases hor with hor | hor
        · exact hk hor.symm
        · exact hnk hor

theorem maxKeyBelow_eq_none {keys : List Nat} {h : Nat} :
    maxKeyBelow keys h = none ↔ ∀ s ∈ keys, ¬ s < h := by
  induction keys with
  | nil => simp [maxKeyBelow]
  | cons s rest ih =>
    simp only [maxKeyBelow, List.mem_cons]
    cases hr : maxKeyBelow rest h with
    | none =>
      split_ifs with hs
      · simp only [reduceCtorEq, false_iff]
        intro hall
        exact hall s (Or.inl rfl) hs
      · simp only [true_iff]
        intro x hx
        rcases hx with rfl | hx
        · exact hs
        · exact ih.mp hr x hx
    | some m =>
      have hex : ¬ ∀ s ∈ rest, ¬ s < h := by
        intro hall
        rw [ih.mpr hall] at hr
        exact absurd hr (by simp)
      push_neg at hex
      obtain ⟨x, hx, hxh⟩ := hex
      split_ifs <;>
        · simp only [reduceCtorEq, false_iff]
          intro hall
          exact hall x (Or.inr hx) hxh

theorem maxKeyBelow_eq_some {keys : List Nat} {h m : Nat}
    (hm : maxKeyBelow keys h = some m) :
    m ∈ keys ∧ m < h ∧ ∀ s ∈ keys, s < h → s ≤ m := by
  induction keys generalizing m with
  | nil => exact absurd hm (by simp [maxKeyBelow])
  | cons s rest ih =>
    simp only [maxKeyBelow] at hm
    cases hr : maxKeyBelow rest h with
    | none =>
      rw [hr] at hm
      split_ifs at hm with hs
      case pos =>
        obtain rfl := Option.some_inj.mp hm
        refine ⟨List.mem_cons_self _ _, hs, ?_⟩
        intro x hx hxh
        rcases List.mem_cons.mp hx with rfl | hx
        · exact le_refl _
        · exact absurd hxh (maxKeyBelow_eq_none.mp hr x hx)
    | some m' =>
      rw [hr] at hm
      obtain ⟨hmem, hlt, hmax⟩ := ih hr
      split_ifs at hm with hs
      · obtain rfl := Option.some_inj.mp hm
        refine ⟨?_, max_lt hs hlt, ?_⟩
        · rcases max_choice s m' with he | he <;> rw [he]
          · exact List.mem_cons_self _ _
          · exact List.mem_cons_of_mem _ hmem
        · intro x hx hxh
          rcases List.mem_cons.mp hx with rfl | hx
          · exact le_max_left _ _
          · exact le_trans (hmax x hx hxh) (le_max_right _ _)
      · obtain rfl := Option.some_inj.mp hm
        refine ⟨List.mem_cons_of_mem _ hmem, hlt, ?_⟩
        intro x hx hxh
        rcases List.mem_cons.mp hx with rfl | hx
        · exact absurd hxh hs
        · exact hmax x hx hxh

theorem maxKeyBelow_eq_some_of {keys : List Nat} {h m : Nat}
    (h1 : m ∈ keys) (h2 : m < h) (h3 : ∀ s ∈ keys, s < h → s ≤ m) :
    maxKeyBelow keys h = some m := by
  cases hr : maxKeyBelow keys h with
  | none => exact absurd h2 (maxKeyBelow_eq_none.mp hr m h1)
  | some m' =>
    obtain ⟨hmem, hlt, hmax⟩ := maxKeyBelow_eq_some hr
    exact congrArg some (le_antisymm (h3 m' hmem hlt) (hmax m h1 h2))

theorem mem_all_hl_hours {hl : List Candle} {h : Nat} :
    h ∈ all_hl_hours hl ↔ h ∈ (hlPairs hl).map Prod.fst := by
  rw [all_hl_hours, (List.perm_insertionSort _ _).mem_iff, List.mem_dedup]

theorem all_hl_hours_sorted (hl : List Candle) :
    List.Sorted (· < ·) (all_hl_hours hl) := by
  have h1 : List.Sorted (· ≤ ·) (all_hl_hours hl) :=
    List.sorted_insertionSort _ _
  have h2 : (all_hl_hours hl).Nodup :=
    (List.perm_insertionSort _ _).nodup_iff.mpr (List.nodup_dedup _)
  exact h1.lt_of_le h2

theorem hl_prices_isSome_of_mem {hl : List Candle} {h : Nat}
    (hm : h ∈ all_hl_hours hl) : (hl_prices hl h).isSome = true :=
  (lastAssoc_isSome_iff _ _).mpr (mem_all_hl_hours.mp hm)

theorem stock_prices_isSome_iff {st : List StockRow} {h : Nat} :
    (stock_prices st h).isSome = true ↔ h ∈ stockKeys st :=
  lastAssoc_isSome_iff _ _

end SpotStockArb

namespace SpotStockArb

theorem stockExistsAtOrBefore_iff {st : List StockRow} {h : Nat} :
    stockExistsAtOrBefore st h = true ↔ ∃ s ∈ stockKeys st, s ≤ h := by
  simp [stockExistsAtOrBefore, List.any_eq_true]

theorem alignGo_cons_hl_none (st : List StockRow) (hl : List Candle)
    (fd : List FundingRecord) (h : Nat) (rest : List Nat) (last : Option ℚ)
    (hhl : hl_prices hl h = none) :
    alignGo st hl fd (h :: rest) last = alignGo st hl fd rest last := by
  simp only [alignGo, hhl]

theorem alignGo_cons_market (st : List StockRow) (hl : List Candle)
    (fd : List FundingRecord) (h : Nat) (rest : List Nat) (last : Option ℚ)
    (ho hc so sc : ℚ) (hhl : hl_prices hl h = some (ho, hc))
    (hst : stock_prices st h = some (so, sc)) :
    alignGo st hl fd (h :: rest) last
      = ⟨h, so, sc, ho, hc, (funding_rates fd h).getD 0, true⟩
        :: alignGo st hl fd rest (some sc) := by
  simp only [alignGo, hhl, hst]

theorem alignGo_cons_ffill (st : List StockRow) (hl : List Candle)
    (fd : List FundingRecord) (h : Nat) (rest : List Nat) (p ho hc : ℚ)
    (hhl : hl_prices hl h = some (ho, hc))
    (hst : stock_prices st h = none) :
    alignGo st hl fd (h :: rest) (some p)
      = ⟨h, p, p, ho, hc, (funding_rates fd h).getD 0, false⟩
        :: alignGo st hl fd rest (some p) := by
  simp only [alignGo, hhl, hst]

theorem alignGo_cons_seed (st : List StockRow) (hl : List Candle)
    (fd : List FundingRecord) (h : Nat) (rest : List Nat) (ho hc : ℚ)
    (latest : Nat) (lo lc : ℚ) (hhl : hl_prices hl h = some (ho, hc))
    (hst : stock_prices st h = none)
    (hmax : maxKeyBelow (stockKeys st) h = some latest)
    (hlat : stock_prices st latest = some (lo, lc)) :
    alignGo st hl fd (h :: rest) none
      = ⟨h, lc, lc, ho, hc, (funding_rates fd h).getD 0, false⟩
        :: alignGo st hl fd rest (some lc) := by
  simp only [alignGo, hhl, hst, hmax, hlat]

theorem alignGo_cons_skip (st : List StockRow) (hl : List Candle)
    (fd : List FundingRecord) (h : Nat) (rest : List Nat) (ho hc : ℚ)
    (hhl : hl_prices hl h = some (ho, hc))
    (hst : stock_prices st h = none)
    (hmax : maxKeyBelow (stockKeys st) h = none) :
    alignGo st hl fd (h :: rest) none = alignGo st hl fd rest none := by
  simp only [alignGo, hhl, hst, hmax]

theorem alignGo_entry_facts (st : List StockRow) (hl : List Candle)
    (fd : List FundingRecord) :
    ∀ (hs : List Nat) (last : Option ℚ), ∀ e ∈ alignGo st hl fd hs last,
      e.funding_rate = (funding_rates fd e.timestamp).getD 0 ∧
      (e.market_open = false → e.stock_open = e.stock_close) := by
  intro hs
  induction hs with
  | nil =>
    intro last e he
    simp [alignGo] at he
  | cons h rest ih =>
    intro last e he
    cases hhl : hl_prices hl h with
    | none =>
      rw [alignGo_cons_hl_none st hl fd h rest last hhl] at he
      exact ih last e he
    | some pr =>
      obtain ⟨ho, hc⟩ := pr
      cases hst : stock_prices st h with
      | some sp =>
        obtain ⟨so, sc⟩ := sp
        rw [alignGo_cons_market st hl fd h rest last ho hc so sc hhl hst] at he
        rcases List.mem_cons.mp he with rfl | he'
        · exact ⟨rfl, fun hmo => by simp at hmo⟩
        · exact ih (some sc) e he'
      | none =>
        cases last with
        | some p =>
          rw [alignGo_cons_ffill st hl fd h rest p ho hc hhl hst] at he
          rcases List.mem_cons.mp he with rfl | he'
          · exact ⟨rfl, fun _ => rfl⟩
          · exact ih (some p) e he'
        | none =>
          cases hmax : maxKeyBelow (stockKeys st) h with
          | none =>
            rw [alignGo_cons_skip st hl fd h rest ho hc hhl hst hmax] at he
            exact ih none e he
          | some latest =>
            have hlat : (stock_prices st latest).isSome = true :=
              stock_prices_isSome_iff.mpr (maxKeyBelow_eq_some hmax).1
            obtain ⟨lp, hlp⟩ := Option.isSome_iff_exists.mp hlat
            obtain ⟨lo, lc⟩ := lp
            rw [alignGo_cons_seed st hl fd h rest ho hc latest lo lc hhl hst
              hmax hlp] at he
            rcases List.mem_cons.mp he with rfl | he'
            · exact ⟨rfl, fun _ => rfl⟩
            · exact ih (some lc) e he'

end SpotStockArb

namespace SpotStockArb

theorem alignGo_timestamps (st : List StockRow) (hl : List Candle)
    (fd : List FundingRecord) :
    ∀ (hs : List Nat) (last : Option ℚ),
      List.Pairwise (· ≤ ·) hs →
      (∀ x ∈ hs, (hl_prices hl x).isSome = true) →
      (alignGo st hl fd hs last).map AlignedEntry.timestamp
        = hs.filter (fun x => last.isSome || stockExistsAtOrBefore st x) := by
  intro hs
  induction hs with
  | nil =>
    intro last _ _
    simp [alignGo]
  | cons h rest ih =>
    intro last hsort hhl
    obtain ⟨hle, hsort'⟩ := List.pairwise_cons.mp hsort
    have hhl' : ∀ x ∈ rest, (hl_prices hl x).isSome = true :=
      fun x hx => hhl x (List.mem_cons_of_mem _ hx)
    obtain ⟨pr, hpr⟩ :=
      Option.isSome_iff_exists.mp (hhl h (List.mem_cons_self _ _))
    obtain ⟨ho, hc⟩ := pr
    cases hst : stock_prices st h with
    | some sp =>
      obtain ⟨so, sc⟩ := sp
      have hhk : h ∈ stockKeys st :=
        stock_prices_isSome_iff.mp (by simp [hst])
      have hcondh : (last.isSome || stockExistsAtOrBefore st h) = true := by
        have hx : stockExistsAtOrBefore st h = true :=
          stockExistsAtOrBefore_iff.mpr ⟨h, hhk, le_refl h⟩
        simp [hx]
      have hfr : rest.filter
          (fun x => last.isSome || stockExistsAtOrBefore st x) = rest :=
        List.filter_eq_self.mpr (fun x hx => by
          have hy : stockExistsAtOrBefore st x = true :=
            stockExistsAtOrBefore_iff.mpr ⟨h, hhk, hle x hx⟩
          simp [hy])
      rw [alignGo_cons_market st hl fd h rest last ho hc so sc hpr hst,
        List.map_cons, ih (some sc) hsort' hhl']
      simp only [Option.isSome_some, Bool.true_or, List.filter_true]
      rw [List.filter_cons]
      simp [hcondh, hfr]
    | none =>
      cases last with
      | some p =>
        rw [alignGo_cons_ffill st hl fd h rest p ho hc hpr hst, List.map_cons,
          ih (some p) hsort' hhl']
        simp only [Option.isSome_some, Bool.true_or, List.filter_true,
          List.filter_cons_of_pos (by simp : (true || stockExistsAtOrBefore st h) = true)]
      | none =>
        cases hmax : maxKeyBelow (stockKeys st) h with
        | some latest =>
          obtain ⟨hmem, hlt, _⟩ := maxKeyBelow_eq_some hmax
          obtain ⟨lp, hlp⟩ :=
            Option.isSome_iff_exists.mp (stock_prices_isSome_iff.mpr hmem)
          obtain ⟨lo, lc⟩ := lp
          have hx : stockExistsAtOrBefore st h = true :=
            stockExistsAtOrBefore_iff.mpr ⟨latest, hmem, le_of_lt hlt⟩
          have hfr2 : rest.filter (fun x => stockExistsAtOrBefore st x)
              = rest :=
            List.filter_eq_self.mpr (fun x hxm =>
              stockExistsAtOrBefore_iff.mpr
                ⟨latest, hmem, le_trans (le_of_lt hlt) (hle x hxm)⟩)
          rw [alignGo_cons_seed st hl fd h rest ho hc latest lo lc hpr hst
            hmax hlp, List.map_cons, ih (some lc) hsort' hhl']
          simp only [Option.isSome_some, Bool.true_or, List.filter_true]
          rw [List.filter_cons]
          simp [hx, hfr2]
        | none =>
          have hnex : ¬ ∃ s ∈ stockKeys st, s ≤ h := by
            rintro ⟨s, hs, hsle⟩
            rcases Nat.lt_or_ge s h with hslt | hsge
            · exact maxKeyBelow_eq_none.mp hmax s hs hslt
            · have hseq : s = h := le_antisymm hsle hsge
              subst hseq
              have hsome := stock_prices_isSome_iff.mpr hs
              rw [hst] at hsome
              exact absurd hsome (by simp)
          have hcondh : ((none : Option ℚ).isSome
              || stockExistsAtOrBefore st h) = false := by
            have hx : stockExistsAtOrBefore st h = false :=
              Bool.eq_false_iff.mpr
                (fun ht => hnex (stockExistsAtOrBefore_iff.mp ht))
            simp [hx]
          rw [alignGo_cons_skip st hl fd h rest ho hc hpr hst hmax,
            ih none hsort' hhl', List.filter_cons]
          have hx : stockExistsAtOrBefore st h = false :=
            Bool.eq_false_iff.mpr
              (fun ht => hnex (stockExistsAtOrBefore_iff.mp ht))
          simp [hx]

end SpotStockArb

/-- C4: align_data merges by whole-hour bucket: its output's timestamps
are exactly the Hyperliquid candle hour-buckets for which a stock price
exists at or before that hour, in strictly increasing order, and every
entry's funding_rate is the funding dictionary value for its bucket with
default 0 when the bucket is absent. -/
theorem align_data_merge_spec (st : List SpotStockArb.StockRow)
    (hl : List SpotStockArb.Candle) (fd : List FundingRecord) (hb : Nat) :
    ((SpotStockArb.align_data st hl fd hb).map
        SpotStockArb.AlignedEntry.timestamp
      = (SpotStockArb.all_hl_hours hl).filter
          (fun x => SpotStockArb.stockExistsAtOrBefore st x)) ∧
    List.Sorted (· < ·)
      ((SpotStockArb.align_data st hl fd hb).map
        SpotStockArb.AlignedEntry.timestamp) ∧
    ∀ e ∈ SpotStockArb.align_data st hl fd hb,
      e.funding_rate = (SpotStockArb.funding_rates fd e.timestamp).getD 0 := by
  have hts := SpotStockArb.alignGo_timestamps st hl fd
    (SpotStockArb.all_hl_hours hl) none
    ((SpotStockArb.all_hl_hours_sorted hl).imp (fun hab => le_of_lt hab))
    (fun x hx => SpotStockArb.hl_prices_isSome_of_mem hx)
  have h1 : (SpotStockArb.align_data st hl fd hb).map
      SpotStockArb.AlignedEntry.timestamp
      = (SpotStockArb.all_hl_hours hl).filter
          (fun x => SpotStockArb.stockExistsAtOrBefore st x) := by
    simpa using hts
  refine ⟨h1, ?_, ?_⟩
  · rw [h1]
    exact (SpotStockArb.all_hl_hours_sorted hl).filter _
  · intro e he
    exact (SpotStockArb.alignGo_entry_facts st hl fd
      (SpotStockArb.all_hl_hours hl) none e he).1

/-- Witness for C4 at a concrete input: one stock bar at hour 0, two
Hyperliquid candles at hours 0 and 3600, no funding records. -/
theorem align_data_merge_spec_witness :
    (SpotStockArb.align_data [⟨0, 10, 12⟩]
        [⟨0, 100, 101⟩, ⟨3600000, 101, 102⟩] [] 24).map
      SpotStockArb.AlignedEntry.timestamp = [0, 3600] ∧
    (⟨3600, 12, 12, 101, 102, 0, false⟩
        : SpotStockArb.AlignedEntry).funding_rate
      = (SpotStockArb.funding_rates [] 3600).getD 0 := by
  have h := align_data_merge_spec [⟨0, 10, 12⟩]
    [⟨0, 100, 101⟩, ⟨3600000, 101, 102⟩] [] 24
  exact ⟨h.1.trans (by decide), h.2.2 ⟨3600, 12, 12, 101, 102, 0, false⟩
    (by decide)⟩

namespace SpotStockArb

theorem mostRecent_eq_of_max {st : List StockRow} {h k : Nat}
    (hm : maxKeyBelow (stockKeys st) (h + 1) = some k) :
    mostRecentStockCloseAtOrBefore st h = (stock_prices st k).map Prod.snd := by
  unfold mostRecentStockCloseAtOrBefore
  rw [hm]

theorem alignGo_ffill (st : List StockRow) (hl : List Candle)
    (fd : List FundingRecord) :
    ∀ (hs : List Nat) (last : Option ℚ),
      List.Pairwise (· < ·) hs →
      (∀ x ∈ hs, (hl_prices hl x).isSome = true) →
      FfillInv st last hs →
      ∀ e ∈ alignGo st hl fd hs last, e.market_open = false →
        mostRecentStockCloseAtOrBefore st e.timestamp = some e.stock_close := by
  intro hs
  induction hs with
  | nil =>
    intro last _ _ _ e he
    simp [alignGo] at he
  | cons h rest ih =>
    intro last hsort hhl hinv e he hmo
    obtain ⟨hlt, hsort'⟩ := List.pairwise_cons.mp hsort
    have hhl' : ∀ x ∈ rest, (hl_prices hl x).isSome = true :=
      fun x hx => hhl x (List.mem_cons_of_mem _ hx)
    obtain ⟨pr, hpr⟩ :=
      Option.isSome_iff_exists.mp (hhl h (List.mem_cons_self _ _))
    obtain ⟨ho, hc⟩ := pr
    cases hst : stock_prices st h with
    | some sp =>
      obtain ⟨so, sc⟩ := sp
      have hhk : h ∈ stockKeys st := stock_prices_isSome_iff.mp (by simp [hst])
      rw [alignGo_cons_market st hl fd h rest last ho hc so sc hpr hst] at he
      rcases List.mem_cons.mp he with rfl | he'
      · exact absurd hmo (by simp)
      · have hinv' : FfillInv st (some sc) rest := by
          show ∃ k, k ∈ stockKeys st ∧
            (stock_prices st k).map Prod.snd = some sc ∧
            (∀ x ∈ rest, k < x) ∧
            (∀ s ∈ stockKeys st, s ≤ k ∨ s ∈ rest ∨ (∀ x ∈ rest, x < s))
          refine ⟨h, hhk, by rw [hst]; rfl, hlt, ?_⟩
          intro s hsk
          rcases le_or_lt s h with hsh | hhs
          · exact Or.inl hsh
          · cases last with
            | none =>
              have hinv2 : ∀ s ∈ stockKeys st,
                  (∃ x ∈ h :: rest, s ≤ x) → s ∈ h :: rest := hinv
              by_cases hex : ∃ x ∈ rest, s ≤ x
              · obtain ⟨x, hx, hsx⟩ := hex
                have hmem2 := hinv2 s hsk ⟨x, List.mem_cons_of_mem _ hx, hsx⟩
                rcases List.mem_cons.mp hmem2 with rfl | hmem3
                · exact absurd hhs (lt_irrefl _)
                · exact Or.inr (Or.inl hmem3)
              · push_neg at hex
                exact Or.inr (Or.inr hex)
            | some p =>
              have hinv2 : ∃ k, k ∈ stockKeys st ∧
                  (stock_prices st k).map Prod.snd = some p ∧
                  (∀ x ∈ h :: rest, k < x) ∧
                  (∀ s ∈ stockKeys st, s ≤ k ∨ s ∈ h :: rest
                    ∨ (∀ x ∈ h :: rest, x < s)) := hinv
              obtain ⟨k0, _, _, hk0lt, hk0tri⟩ := hinv2
              rcases hk0tri s hsk with hsl | hsm | hsg
              · exact absurd hhs (lt_asymm
                  (lt_of_le_of_lt hsl (hk0lt h (List.mem_cons_self _ _))))
              · rcases List.mem_cons.mp hsm with rfl | hsm2
                · exact absurd hhs (lt_irrefl _)
                · exact Or.inr (Or.inl hsm2)
              · exact Or.inr (Or.inr
                  (fun x hx => hsg x (List.mem_cons_of_mem _ hx)))
        exact ih (some sc) hsort' hhl' hinv' e he' hmo
    | none =>
      cases last with
      | some p =>
        have hinv2 : ∃ k, k ∈ stockKeys st ∧
            (stock_prices st k).map Prod.snd = some p ∧
            (∀ x ∈ h :: rest, k < x) ∧
            (∀ s ∈ stockKeys st, s ≤ k ∨ s ∈ h :: rest
              ∨ (∀ x ∈ h :: rest, x < s)) := hinv
        obtain ⟨k, hkmem, hkcl, hklt, htri⟩ := hinv2
        rw [alignGo_cons_ffill st hl fd h rest p ho hc hpr hst] at he
        rcases List.mem_cons.mp he with rfl | he'
        · have hkh : k < h := hklt h (List.mem_cons_self _ _)
          have hmaxeq : maxKeyBelow (stockKeys st) (h + 1) = some k := by
            refine maxKeyBelow_eq_some_of hkmem (Nat.lt_succ_of_lt hkh) ?_
            intro s hsk hs1
            have hsh : s ≤ h := Nat.lt_succ_iff.mp hs1
            rcases htri s hsk with hsl | hsm | hsg
            · exact hsl
            · rcases List.mem_cons.mp hsm with rfl | hsm2
              · have hcontra := stock_prices_isSome_iff.mpr hsk
                rw [hst] at hcontra
                exact absurd hcontra (by simp)
              · exact absurd (hlt s hsm2) (not_lt.mpr hsh)
            · exact absurd (hsg h (List.mem_cons_self _ _)) (not_lt.mpr hsh)
          show mostRecentStockCloseAtOrBefore st h = some p
          rw [mostRecent_eq_of_max hmaxeq]
          exact hkcl
        · have hinv' : FfillInv st (some p) rest := by
            show ∃ k, k ∈ stockKeys st ∧
              (stock_prices st k).map Prod.snd = some p ∧
              (∀ x ∈ rest, k < x) ∧
              (∀ s ∈ stockKeys st, s ≤ k ∨ s ∈ rest ∨ (∀ x ∈ rest, x < s))
            refine ⟨k, hkmem, hkcl,
              fun x hx => hklt x (List.mem_cons_of_mem _ hx), ?_⟩
            intro s hsk
            rcases htri s hsk with hsl | hsm | hsg
            · exact Or.inl hsl
            · rcases List.mem_cons.mp hsm with rfl | hsm2
              · have hcontra := stock_prices_isSome_iff.mpr hsk
                rw [hst] at hcontra
                exact absurd hcontra (by simp)
              · exact Or.inr (Or.inl hsm2)
            · exact Or.inr (Or.inr
                (fun x hx => hsg x (List.mem_cons_of_mem _ hx)))
          exact ih (some p) hsort' hhl' hinv' e he' hmo
      | none =>
        have hinv2 : ∀ s ∈ stockKeys st,
            (∃ x ∈ h :: rest, s ≤ x) → s ∈ h :: rest := hinv
        cases hmax : maxKeyBelow (stockKeys st) h with
        | some latest =>
          obtain ⟨hmem, hlt2, _⟩ := maxKeyBelow_eq_some hmax
          have hmem2 := hinv2 latest hmem
            ⟨h, List.mem_cons_self _ _, le_of_lt hlt2⟩
          rcases List.mem_cons.mp hmem2 with rfl | hmem3
          · exact absurd hlt2 (lt_irrefl _)
          · exact absurd (hlt latest hmem3) (lt_asymm hlt2)
        | none =>
          rw [alignGo_cons_skip st hl fd h rest ho hc hpr hst hmax] at he
          have hinv' : FfillInv st none rest := by
            show ∀ s ∈ stockKeys st, (∃ x ∈ rest, s ≤ x) → s ∈ rest
            intro s hsk hex
            obtain ⟨x, hx, hsx⟩ := hex
            have hmem2 := hinv2 s hsk ⟨x, List.mem_cons_of_mem _ hx, hsx⟩
            rcases List.mem_cons.mp hmem2 with rfl | hmem3
            · have hcontra := stock_prices_isSome_iff.mpr hsk
              rw [hst] at hcontra
              exact absurd hcontra (by simp)
            · exact hmem3
          exact ih none hsort' hhl' hinv' e he hmo

end SpotStockArb

/-- C2 counterexample: a stock bar can exist at an hour with no
Hyperliquid candle (bucket 3600 here).  The loop's last_stock_price never
sees it, so the entry at hour 7200 (market_open false) holds the close 10
of the bar at hour 0, while the most recent stock bar at or before 7200
is the one at 3600 with close 20. -/
theorem align_data_forward_fill_cex :
    (SpotStockArb.align_data [⟨0, 10, 10⟩, ⟨3600, 20, 20⟩]
        [⟨0, 100, 100⟩, ⟨7200000, 100, 100⟩] [] 24)[1]?
      = some ⟨7200, 10, 10, 100, 100, 0, false⟩ ∧
    SpotStockArb.mostRecentStockCloseAtOrBefore
        [⟨0, 10, 10⟩, ⟨3600, 20, 20⟩] 7200 = some 20 ∧
    (10 : ℚ) ≠ 20 := by
  refine ⟨by decide, by decide, by norm_num⟩

/-- C2 (amended): provided every stock-price hour bucket also carries a
Hyperliquid candle, every align_data entry with market_open false has
stock_open = stock_close, both equal to the close of the most recent
stock bar at or before its hour. -/
theorem align_data_forward_fill (st : List SpotStockArb.StockRow)
    (hl : List SpotStockArb.Candle) (fd : List FundingRecord) (hb : Nat)
    (hsub : ∀ s ∈ SpotStockArb.stockKeys st, s ∈ SpotStockArb.all_hl_hours hl) :
    ∀ e ∈ SpotStockArb.align_data st hl fd hb, e.market_open = false →
      SpotStockArb.mostRecentStockCloseAtOrBefore st e.timestamp
          = some e.stock_close ∧
      e.stock_open = e.stock_close := by
  intro e he hmo
  refine ⟨?_, (SpotStockArb.alignGo_entry_facts st hl fd
    (SpotStockArb.all_hl_hours hl) none e he).2 hmo⟩
  refine SpotStockArb.alignGo_ffill st hl fd (SpotStockArb.all_hl_hours hl)
    none (SpotStockArb.all_hl_hours_sorted hl)
    (fun x hx => SpotStockArb.hl_prices_isSome_of_mem hx) ?_ e he hmo
  show ∀ s ∈ SpotStockArb.stockKeys st,
    (∃ x ∈ SpotStockArb.all_hl_hours hl, s ≤ x)
      → s ∈ SpotStockArb.all_hl_hours hl
  exact fun s hs _ => hsub s hs

/-- Witness for C2's amended theorem: stock bar at hour 0 (which has a
candle), candles at hours 0 and 3600; the closed-market entry at 3600
carries the hour-0 close 12. -/
theorem align_data_forward_fill_witness :
    SpotStockArb.mostRecentStockCloseAtOrBefore [⟨0, 10, 12⟩] 3600
        = some 12 ∧
    (⟨3600, 12, 12, 101, 102, 0, false⟩
        : SpotStockArb.AlignedEntry).stock_open
      = (⟨3600, 12, 12, 101, 102, 0, false⟩
        : SpotStockArb.AlignedEntry).stock_close :=
  align_data_forward_fill [⟨0, 10, 12⟩] [⟨0, 100, 101⟩, ⟨3600000, 101, 102⟩]
    [] 24 (by decide) ⟨3600, 12, 12, 101, 102, 0, false⟩ (by decide) rfl

/-- C3: in the rows calculate_arb_pnl computes from an align_data output,
every hour whose entry has market_open false gets a stock-leg PnL of
exactly 0 (the frozen stock side), so that hour's price PnL equals the
short Hyperliquid leg's PnL alone. -/
theorem closed_hours_stock_pnl_zero (st : List SpotStockArb.StockRow)
    (hl : List SpotStockArb.Candle) (fd : List FundingRecord) (hb : Nat)
    (amt : ℚ) (rows : List SpotStockArb.PnlRow)
    (hrun : SpotStockArb.calculate_arb_pnl
        (SpotStockArb.align_data st hl fd hb) amt = some rows) :
    ∀ i (hi : i < (SpotStockArb.align_data st hl fd hb).length)
      (hi2 : i < rows.length),
      ((SpotStockArb.align_data st hl fd hb).get ⟨i, hi⟩).market_open = false →
        (rows.get ⟨i, hi2⟩).stock_pnl = 0 ∧
        (rows.get ⟨i, hi2⟩).hour_pnl = (rows.get ⟨i, hi2⟩).hl_pnl := by
  intro i hi hi2 hmo
  obtain ⟨hlen, hidx⟩ := SpotStockArb.arbGo_eq_some_spec (amt / 2)
    (SpotStockArb.align_data st hl fd hb) 0 0 rows hrun
  obtain ⟨hnz1, hnz2, hsp, hhp, hhr⟩ := hidx i hi hi2
  have heq : ((SpotStockArb.align_data st hl fd hb).get ⟨i, hi⟩).stock_open
      = ((SpotStockArb.align_data st hl fd hb).get ⟨i, hi⟩).stock_close :=
    (SpotStockArb.alignGo_entry_facts st hl fd (SpotStockArb.all_hl_hours hl)
      none _ (List.get_mem _ _ _)).2 hmo
  have hz : (rows.get ⟨i, hi2⟩).stock_pnl = 0 := by
    rw [hsp, ← heq, sub_self, zero_div, mul_zero]
  exact ⟨hz, by rw [hhr, hz, zero_add]⟩

/-- Witness for C3: a two-hour alignment whose second hour is a closed
market hour; its row has stock PnL 0 and hour PnL equal to the HL PnL. -/
theorem closed_hours_stock_pnl_zero_witness :
    (([⟨0, 10, 100, 0, 0, 0, 0, 0, 0, 0, true⟩,
        ⟨3600, 10, 100, 0, 0, 0, 0, 0, 0, 0, false⟩]
        : List SpotStockArb.PnlRow).get ⟨1, Nat.one_lt_two⟩).stock_pnl = 0 ∧
    (([⟨0, 10, 100, 0, 0, 0, 0, 0, 0, 0, true⟩,
        ⟨3600, 10, 100, 0, 0, 0, 0, 0, 0, 0, false⟩]
        : List SpotStockArb.PnlRow).get ⟨1, Nat.one_lt_two⟩).hour_pnl
      = (([⟨0, 10, 100, 0, 0, 0, 0, 0, 0, 0, true⟩,
        ⟨3600, 10, 100, 0, 0, 0, 0, 0, 0, 0, false⟩]
        : List SpotStockArb.PnlRow).get ⟨1, Nat.one_lt_two⟩).hl_pnl := by
  have hal : SpotStockArb.align_data [⟨0, 10, 10⟩]
      [⟨0, 100, 100⟩, ⟨3600000, 100, 100⟩] [] 24
      = [⟨0, 10, 10, 100, 100, 0, true⟩,
         ⟨3600, 10, 10, 100, 100, 0, false⟩] := by decide
  have hrun : SpotStockArb.calculate_arb_pnl
      (SpotStockArb.align_data [⟨0, 10, 10⟩]
        [⟨0, 100, 100⟩, ⟨3600000, 100, 100⟩] [] 24) 200
      = some [⟨0, 10, 100, 0, 0, 0, 0, 0, 0, 0, true⟩,
              ⟨3600, 10, 100, 0, 0, 0, 0, 0, 0, 0, false⟩] := by
    rw [hal]
    simp only [SpotStockArb.calculate_arb_pnl, SpotStockArb.arbGo,
      SpotStockArb.qdiv?]
    norm_num
  exact closed_hours_stock_pnl_zero [⟨0, 10, 10⟩]
    [⟨0, 100, 100⟩, ⟨3600000, 100, 100⟩] [] 24 200
    [⟨0, 10, 100, 0, 0, 0, 0, 0, 0, 0, true⟩,
     ⟨3600, 10, 100, 0, 0, 0, 0, 0, 0, 0, false⟩] hrun 1
    (by decide) Nat.one_lt_two (by decide)
